import Mathlib

/-!
Verification of `scripts/load_nifty_candles.py`, a one-shot loader that
fetches intraday candles from a market-data provider and upserts them into
the `replay_candles` table.

Shallow embedding conventions:
* Timestamps are `Int` (minutes, say).  A pandas datetime column is either
  naive (`tz = none`), in which case the stored values are wall-clock
  values, or timezone-aware (`tz = some off` with `off` the display
  offset in minutes), in which case the stored values are UTC instants.
* Prices coming from the provider are `Option Int` (`none` models NaN /
  missing).  `float(x)` on a missing value raises, which the per-row
  `try/except` in `load_to_db` catches.
* `sys.exit(1)` and an uncaught exception terminating the process are both
  modelled as `Except.error 1` (CPython exits with status 1 in each case).
* External nondeterminism (does `psycopg2.connect` fail? does
  `cur.execute` raise for row `i`?) is made explicit through Boolean
  oracles passed as arguments.
-/

namespace LoadNiftyCandles

/-- The fixed symbol constant: `SYMBOL = "NIFTY50"`, the name stored in
`replay_candles`. -/
def SYMBOL : String := "NIFTY50"

/-- A raw provider row after column renaming/selection: the stored
datetime value and the `open/high/low/close/volume` columns, where `none`
models NaN. -/
structure RawRow where
  t : Int
  open_ : Option Int
  high : Option Int
  low : Option Int
  close : Option Int
  volume : Option Int
  deriving Repr, DecidableEq

/-- The dataframe returned by `yf.download`, already renamed to the
canonical columns.  `tz = none` means the datetime column is naive (stored
values are wall-clock); `tz = some off` means it is timezone-aware with
display offset `off` minutes (stored values are UTC instants, as in
pandas). -/
structure Frame where
  tz : Option Int
  rows : List RawRow
  deriving Repr, DecidableEq

/-- A candle as returned by `fetch_candles` (one row of the cleaned
dataframe handed to `load_to_db`). -/
structure Candle where
  candle_time : Int
  open_ : Option Int
  high : Option Int
  low : Option Int
  close : Option Int
  volume : Int
  deriving Repr, DecidableEq

/-- Model of `s.dt.tz_localize("Asia/Kolkata")` on a naive value `t`: the stored
value becomes the UTC instant `t - 330` (Asia/Kolkata is UTC+05:30, no
DST) and the display offset becomes `330`. -/
def tz_localize_kolkata (t : Int) : Int × Int := (t - 330, 330)

/-- Model of `s.dt.tz_convert("UTC")` on an aware value: the stored instant is
unchanged, the display offset becomes `0`. -/
def tz_convert_utc (p : Int × Int) : Int × Int := (p.1, 0)

/-- Model of `s.dt.tz_localize(None)` on an aware value: the naive wall-clock value
in the current display timezone, i.e. instant plus display offset. -/
def tz_localize_none (p : Int × Int) : Int := p.1 + p.2

/-- The timestamp transformation applied by `fetch_candles` to the
`candle_time` column: naive columns are localized to Asia/Kolkata then
converted to UTC; aware columns are converted to UTC; finally the
timezone is stripped. -/
def normalizeTime (tz : Option Int) (t : Int) : Int :=
  match tz with
  | none => tz_localize_none (tz_convert_utc (tz_localize_kolkata t))
  | some off => tz_localize_none (tz_convert_utc (t, off))

/-- The predicate of `df.dropna(subset=["open", "high", "low", "close"])`:
keep a row iff all four price fields are present. -/
def keepRow (r : RawRow) : Bool :=
  r.open_.isSome && r.high.isSome && r.low.isSome && r.close.isSome

/-- Build one output candle from a kept raw row: normalize the timestamp
and apply `volume.fillna(0)`. -/
def mkCandle (tz : Option Int) (r : RawRow) : Candle :=
  { candle_time := normalizeTime tz r.t
    open_ := r.open_
    high := r.high
    low := r.low
    close := r.close
    volume := r.volume.getD 0 }

/-- Embedding of `fetch_candles()`: exits with code 1 when the downloaded dataframe is
empty; otherwise drops rows with NaN prices, normalizes the timestamps to
naive UTC, and fills missing volumes with 0. -/
def fetch_candles (f : Frame) : Except Nat (List Candle) :=
  if f.rows.isEmpty then
    Except.error 1
  else
    Except.ok ((f.rows.filter keepRow).map (mkCandle f.tz))

/-- One persisted row of `replay_candles`. -/
structure DbRow where
  symbol : String
  candle_time : Int
  open_ : Int
  high : Int
  low : Int
  close : Int
  volume : Int
  deriving Repr, DecidableEq

/-- Does the table already hold a row with this `(symbol, candle_time)`
key?  (`ON CONFLICT (symbol, candle_time)`.) -/
def hasKey (table : List DbRow) (sym : String) (t : Int) : Bool :=
  table.any (fun r => r.symbol == sym && r.candle_time == t)

/-- The mutable state of `load_to_db`'s loop: the table plus the
`inserted` and `skipped` counters; `commits` counts `conn.commit()`
calls. -/
structure LoadState where
  table : List DbRow
  inserted : Nat
  skipped : Nat
  commits : Nat
  deriving Repr, DecidableEq

/-- Batch size of the loader loop (`BATCH = 500`). -/
def BATCH : Nat := 500

/-- Number of iterations of `for i in range(0, n, BATCH)`, i.e.
`⌈n / BATCH⌉`. -/
def numBatches (n : Nat) : Nat := (n + (BATCH - 1)) / BATCH

/-- The body of the inner row loop of `load_to_db`.  `err idx` says
whether `cur.execute` raises for the row at (global) index `idx`; a
missing price also raises (from `float(None)` inside the `try`).  Either
exception is caught: the row is logged and counted as skipped.  Otherwise
the upsert inserts on a new `(SYMBOL, candle_time)` key (`rowcount > 0`)
and does nothing on a conflicting key. -/
def processRow (err : Nat → Bool) (idx : Nat) (st : LoadState) (c : Candle) :
    LoadState :=
  if err idx then
    { st with skipped := st.skipped + 1 }
  else
    match c.open_, c.high, c.low, c.close with
    | some o, some h, some l, some cl =>
        if hasKey st.table SYMBOL c.candle_time then
          { st with skipped := st.skipped + 1 }
        else
          { st with
              table := st.table ++
                [{ symbol := SYMBOL, candle_time := c.candle_time,
                   open_ := o, high := h, low := l, close := cl,
                   volume := c.volume }]
              inserted := st.inserted + 1 }
    | _, _, _, _ => { st with skipped := st.skipped + 1 }

/-- Run the inner row loop over a batch, threading the global row index. -/
def processRows (err : Nat → Bool) : Nat → LoadState → List Candle → LoadState
  | _, st, [] => st
  | idx, st, c :: cs => processRows err (idx + 1) (processRow err idx st c) cs

/-- The outer batch loop of `load_to_db`: for each `i` in
`range(0, len(rows), BATCH)`, process the slice `rows[i : i + BATCH]`
row by row and then commit. -/
def loadBatches (err : Nat → Bool) (st : LoadState) (rows : List Candle) :
    LoadState :=
  (List.range (numBatches rows.length)).foldl
    (fun s k =>
      let st1 := processRows err (k * BATCH) s
        ((rows.drop (k * BATCH)).take BATCH)
      { st1 with commits := st1.commits + 1 })
    st

/-- Embedding of `load_to_db(df)`: exits with code 1 when the DB
connection fails, otherwise runs the batched upsert loop over the fetched
rows against the current table state, starting both counters at 0. -/
def load_to_db (connFail : Bool) (err : Nat → Bool) (table : List DbRow)
    (df : List Candle) : Except Nat LoadState :=
  if connFail then Except.error 1
  else Except.ok (loadBatches err ⟨table, 0, 0, 0⟩ df)

/-- Embedding of `verify()`: a fresh connection (failure here is an uncaught exception,
i.e. process exit 1), then the aggregate over rows with `symbol = SYMBOL`:
`None` when there are no such rows, else `(symbol, count, earliest,
latest)`. -/
def verify (connFail : Bool) (table : List DbRow) :
    Except Nat (Option (String × Nat × Int × Int)) :=
  if connFail then Except.error 1
  else
    match table.filter (fun r => r.symbol == SYMBOL) with
    | [] => Except.ok none
    | r :: rs =>
        Except.ok (some (SYMBOL, (r :: rs).length,
          (rs.map (·.candle_time)).foldl min r.candle_time,
          (rs.map (·.candle_time)).foldl max r.candle_time))

/-- The external nondeterminism of one run: the provider response, whether
each of the two `psycopg2.connect` calls fails, and which row upserts
raise. -/
structure Oracle where
  frame : Frame
  connFail1 : Bool
  connFail2 : Bool
  err : Nat → Bool

/-- Outcome of a run: the process exit code and the final table state. -/
structure RunResult where
  exitCode : Nat
  table : List DbRow

/-- The `__main__` block: fetch, load, verify, in sequence; an
`Except.error` at any stage terminates the process with that code and
leaves the table as it was at that point. -/
def main_run (o : Oracle) (table : List DbRow) : RunResult :=
  match fetch_candles o.frame with
  | Except.error e => ⟨e, table⟩
  | Except.ok df =>
    match load_to_db o.connFail1 o.err table df with
    | Except.error e => ⟨e, table⟩
    | Except.ok st =>
      match verify o.connFail2 st.table with
      | Except.error e => ⟨e, st.table⟩
      | Except.ok _ => ⟨0, st.table⟩

/-- A candle whose four price fields are all present, so that the
`float(...)` conversions inside the `try` block succeed. -/
def convertible (c : Candle) : Bool :=
  c.open_.isSome && c.high.isSome && c.low.isSome && c.close.isSome

/-- Spec-side definition (for the refinement claim about timestamps): the
UTC instant denoted by a provider timestamp — a timezone-aware stored
value already is a UTC instant; a naive value is interpreted as
Asia/Kolkata wall-clock time (UTC+05:30). -/
def specUtcInstant (tz : Option Int) (t : Int) : Int :=
  match tz with
  | none => t - 330
  | some _ => t

/-- Key uniqueness of a table state: no two rows share the same
`(symbol, candle_time)` key. -/
def keyUnique : List DbRow → Bool
  | [] => true
  | r :: rs => !hasKey rs r.symbol r.candle_time && keyUnique rs

/-- Table state after a sequence of loader runs, each with its own fetched
dataframe and per-row error behaviour (connections assumed up, else the
run writes nothing at all). -/
def runLoads (loads : List (List Candle × (Nat → Bool)))
    (table : List DbRow) : List DbRow :=
  loads.foldl (fun t p => (loadBatches p.2 ⟨t, 0, 0, 0⟩ p.1).table) table

/-! Concrete inputs used by the witness theorems. -/

/-- An error oracle under which no upsert raises. -/
def wErr0 : Nat → Bool := fun _ => false

/-- An error oracle under which every upsert raises. -/
def wErr1 : Nat → Bool := fun _ => true

/-- A concrete fully-populated candle at time `t`. -/
def wCandle (t : Int) : Candle := ⟨t, some 100, some 101, some 99, some 100, 10⟩

/-- A concrete two-row dataframe. -/
def wDf2 : List Candle := [wCandle 1, wCandle 2]

/-- A concrete naive-timezone provider frame: one clean row and one row
with missing high/volume. -/
def wFrame : Frame :=
  ⟨none, [⟨400, some 1, some 2, some 0, some 1, some 5⟩,
          ⟨350, some 1, none, some 0, some 1, none⟩]⟩

/-- The dataframe `fetch_candles` returns on `wFrame`. -/
def wOut : List Candle := [⟨70, some 1, some 2, some 0, some 1, 5⟩]

/-- A concrete fully-populated raw row at stored time `t`. -/
def wRaw (t : Int) : RawRow := ⟨t, some 1, some 2, some 0, some 1, some 5⟩

/-- A provider frame whose rows are ascending in time (timezone-aware,
display offset 330). -/
def wFrameS : Frame := ⟨some 330, [wRaw 10, wRaw 20, wRaw 20]⟩

/-- The dataframe `fetch_candles` returns on `wFrameS`. -/
def wOutS : List Candle :=
  [⟨10, some 1, some 2, some 0, some 1, 5⟩,
   ⟨20, some 1, some 2, some 0, some 1, 5⟩,
   ⟨20, some 1, some 2, some 0, some 1, 5⟩]

/-- A naive provider frame whose rows are descending in time. -/
def wFrameD : Frame := ⟨none, [wRaw 400, wRaw 350]⟩

/-- A 500-row dataframe with pairwise-distinct candle times `0..499`. -/
def wDf500 : List Candle :=
  (List.range 500).map (fun (n : Nat) => wCandle (Int.ofNat n))

/-- A table already holding the 10 keys `(SYMBOL, 0) .. (SYMBOL, 9)`. -/
def wTable10 : List DbRow :=
  (List.range 10).map
    (fun (n : Nat) => ⟨SYMBOL, Int.ofNat n, 100, 101, 99, 100, 10⟩)

/-- A pre-existing table row for an unrelated symbol. -/
def wTableX : List DbRow := [⟨"X", 5, 1, 2, 0, 1, 7⟩]

/-- A concrete sequence of two loader runs. -/
def wLoads : List (List Candle × (Nat → Bool)) :=
  [(wDf2, wErr0), ([wCandle 1, wCandle 1], wErr0)]

/-- The oracle of a run whose fetch returns no data. -/
def wOracleE : Oracle := ⟨⟨none, []⟩, false, false, wErr0⟩

/-- The oracle of a run where fetch succeeds, the loader connection
succeeds, but the verifier connection fails. -/
def wOracleV : Oracle := ⟨wFrame, false, true, wErr0⟩

/-- An empty initial load state. -/
def wSt0 : LoadState := ⟨[], 0, 0, 0⟩

/-- State after loading `wDf2` into an empty table with no errors. -/
def wSt1 : LoadState := loadBatches wErr0 ⟨[], 0, 0, 0⟩ wDf2

/-- State after loading `wDf2` a second time over `wSt1`'s table. -/
def wSt1b : LoadState := loadBatches wErr0 ⟨wSt1.table, 0, 0, 0⟩ wDf2

/-- State after loading `wDf2` when every row upsert raises. -/
def wStE : LoadState := loadBatches wErr1 ⟨[], 0, 0, 0⟩ wDf2

/-- State after loading the 500-row dataframe over the 10-key table. -/
def wSt500 : LoadState := loadBatches wErr0 ⟨wTable10, 0, 0, 0⟩ wDf500

/-- The candle `fetch_candles` produces from `wFrame`'s first row. -/
def wC : Candle := ⟨70, some 1, some 2, some 0, some 1, 5⟩

/-- The row the loader writes for `wCandle 1`. -/
def wRow1 : DbRow := ⟨SYMBOL, 1, 100, 101, 99, 100, 10⟩


theorem processRow_commits (err : Nat → Bool) (idx : Nat) (st : LoadState)
    (c : Candle) : (processRow err idx st c).commits = st.commits := by
  unfold processRow
  repeat' split
  all_goals rfl

theorem processRow_commits_set (err : Nat → Bool) (idx : Nat)
    (st : LoadState) (c : Candle) (k : Nat) :
    processRow err idx { st with commits := k } c =
      { processRow err idx st c with commits := k } := by
  unfold processRow
  repeat' split
  all_goals rfl

theorem processRows_commits (err : Nat → Bool) :
    ∀ (rows : List Candle) (idx : Nat) (st : LoadState),
      (processRows err idx st rows).commits = st.commits
  | [], _, _ => rfl
  | c :: cs, idx, st => by
      rw [processRows, processRows_commits err cs,
        processRow_commits]

theorem processRows_commits_set (err : Nat → Bool) :
    ∀ (rows : List Candle) (idx : Nat) (st : LoadState) (k : Nat),
      processRows err idx { st with commits := k } rows =
        { processRows err idx st rows with commits := k }
  | [], _, _, _ => rfl
  | c :: cs, idx, st, k => by
      rw [processRows, processRow_commits_set,
        processRows_commits_set err cs, processRows]

theorem processRows_append (err : Nat → Bool) :
    ∀ (l1 l2 : List Candle) (idx : Nat) (st : LoadState),
      processRows err idx st (l1 ++ l2) =
        processRows err (idx + l1.length) (processRows err idx st l1) l2
  | [], l2, idx, st => by simp [processRows]
  | c :: cs, l2, idx, st => by
      rw [List.cons_append, processRows, processRows,
        processRows_append err cs]
      congr 1
      simp [List.length_cons]
      omega


theorem loadBatches_aux (err : Nat → Bool) (rows : List Candle)
    (st : LoadState) :
    ∀ q : Nat, q ≤ numBatches rows.length →
      (List.range q).foldl
        (fun s k =>
          let st1 := processRows err (k * BATCH) s
            ((rows.drop (k * BATCH)).take BATCH)
          { st1 with commits := st1.commits + 1 })
        st =
      { processRows err 0 st (rows.take (q * BATCH)) with
          commits := st.commits + q } := by
  intro q
  induction q with
  | zero => intro _; rfl
  | succ q ih =>
    intro hq
    have hq' : q ≤ numBatches rows.length := Nat.le_of_succ_le hq
    have hlen : q * BATCH ≤ rows.length := by
      have h2 := hq
      unfold numBatches BATCH at h2
      unfold BATCH
      omega
    rw [List.range_succ, List.foldl_append, ih hq']
    simp only [List.foldl_cons, List.foldl_nil]
    rw [processRows_commits_set]
    have hsplit : rows.take ((q + 1) * BATCH) =
        rows.take (q * BATCH) ++ (rows.drop (q * BATCH)).take BATCH := by
      rw [Nat.succ_mul, List.take_add]
    rw [hsplit, processRows_append]
    have htl : (rows.take (q * BATCH)).length = q * BATCH := by
      rw [List.length_take]
      omega
    rw [htl, Nat.zero_add]
    congr 1

theorem loadBatches_eq (err : Nat → Bool) (st : LoadState)
    (rows : List Candle) :
    loadBatches err st rows =
      { processRows err 0 st rows with
          commits := st.commits + numBatches rows.length } := by
  rw [loadBatches, loadBatches_aux err rows st (numBatches rows.length)
    (Nat.le_refl _)]
  have h : rows.take (numBatches rows.length * BATCH) = rows := by
    apply List.take_of_length_le
    unfold numBatches BATCH
    omega
  rw [h]


theorem processRow_of_err (err : Nat → Bool) (idx : Nat) (st : LoadState)
    (c : Candle) (h : err idx = true) :
    processRow err idx st c = { st with skipped := st.skipped + 1 } := by
  simp [processRow, h]

theorem processRow_skip_of_conflict (err : Nat → Bool) (idx : Nat)
    (st : LoadState) (c : Candle)
    (h : convertible c = true → hasKey st.table SYMBOL c.candle_time = true) :
    processRow err idx st c = { st with skipped := st.skipped + 1 } := by
  unfold processRow
  split
  · rfl
  · split
    · next o oh ol ocl ho hh hl hcl =>
        have hconv : convertible c = true := by
          simp [convertible, ho, hh, hl, hcl]
        rw [h hconv]
        rfl
    · rfl

theorem processRow_table_cases (err : Nat → Bool) (idx : Nat)
    (st : LoadState) (c : Candle) :
    (processRow err idx st c).table = st.table ∨
      (hasKey st.table SYMBOL c.candle_time = false ∧
        ∃ row : DbRow, (processRow err idx st c).table = st.table ++ [row] ∧
          row.symbol = SYMBOL ∧ row.candle_time = c.candle_time) := by
  unfold processRow
  split
  · exact Or.inl rfl
  · split
    · next o oh ol ocl ho hh hl hcl =>
        split
        · exact Or.inl rfl
        · next hk =>
            refine Or.inr ⟨by simpa using hk, ?_⟩
            exact ⟨_, rfl, rfl, rfl⟩
    · exact Or.inl rfl

theorem processRow_sum (err : Nat → Bool) (idx : Nat) (st : LoadState)
    (c : Candle) :
    (processRow err idx st c).inserted + (processRow err idx st c).skipped =
      st.inserted + st.skipped + 1 := by
  unfold processRow
  repeat' split
  all_goals simp
  all_goals omega


theorem hasKey_iff (l : List DbRow) (s : String) (t : Int) :
    hasKey l s t = true ↔ ∃ r ∈ l, r.symbol = s ∧ r.candle_time = t := by
  simp [hasKey, List.any_eq_true, beq_iff_eq]

theorem keyUnique_iff_pairwise (l : List DbRow) :
    keyUnique l = true ↔
      List.Pairwise
        (fun r s => ¬(r.symbol = s.symbol ∧ r.candle_time = s.candle_time))
        l := by
  induction l with
  | nil => simp [keyUnique]
  | cons r rs ih =>
      simp [keyUnique, hasKey, List.any_eq_true, beq_iff_eq, ih,
        List.pairwise_cons]
      intro _
      constructor
      · intro h1 a ha hs ht
        exact h1 a ha hs.symm ht.symm
      · intro h1 a ha hs ht
        exact h1 a ha hs.symm ht.symm

theorem processRow_keyUnique (err : Nat → Bool) (idx : Nat) (st : LoadState)
    (c : Candle) (h : keyUnique st.table = true) :
    keyUnique (processRow err idx st c).table = true := by
  rcases processRow_table_cases err idx st c with hEq | ⟨hk, row, hEq, hsym, ht⟩
  · rw [hEq]; exact h
  · rw [hEq]
    rw [keyUnique_iff_pairwise] at h ⊢
    rw [List.pairwise_append]
    refine ⟨h, List.pairwise_singleton _ _, ?_⟩
    intro a ha b hb
    have hb' : b = row := by simpa using hb
    subst hb'
    rintro ⟨hs, htt⟩
    have : hasKey st.table SYMBOL c.candle_time = true := by
      rw [hasKey_iff]
      exact ⟨a, ha, by rw [hs, hsym], by rw [htt, ht]⟩
    rw [this] at hk
    cases hk


theorem processRows_keyUnique (err : Nat → Bool) :
    ∀ (rows : List Candle) (idx : Nat) (st : LoadState),
      keyUnique st.table = true →
      keyUnique (processRows err idx st rows).table = true
  | [], _, _, h => h
  | c :: cs, idx, st, h =>
      processRows_keyUnique err cs (idx + 1) _
        (processRow_keyUnique err idx st c h)

theorem processRows_mem_symbol (err : Nat → Bool) :
    ∀ (rows : List Candle) (idx : Nat) (st : LoadState) (r : DbRow),
      r ∈ (processRows err idx st rows).table →
      r ∈ st.table ∨ r.symbol = SYMBOL
  | [], _, _, _, h => Or.inl h
  | c :: cs, idx, st, r, h => by
      rcases processRows_mem_symbol err cs (idx + 1) _ r h with h1 | h1
      · rcases processRow_table_cases err idx st c with
          hEq | ⟨-, row, hEq, hsym, -⟩
        · rw [hEq] at h1; exact Or.inl h1
        · rw [hEq] at h1
          rcases List.mem_append.mp h1 with h2 | h2
          · exact Or.inl h2
          · have : r = row := by simpa using h2
            subst this
            exact Or.inr hsym
      · exact Or.inr h1

theorem processRow_hasKey_mono (err : Nat → Bool) (idx : Nat)
    (st : LoadState) (c : Candle) (s : String) (t : Int)
    (h : hasKey st.table s t = true) :
    hasKey (processRow err idx st c).table s t = true := by
  rcases processRow_table_cases err idx st c with hEq | ⟨-, row, hEq, -, -⟩
  · rw [hEq]; exact h
  · rw [hEq]
    unfold hasKey at h ⊢
    rw [List.any_append, h]
    rfl

theorem processRows_hasKey_mono (err : Nat → Bool) :
    ∀ (rows : List Candle) (idx : Nat) (st : LoadState) (s : String)
      (t : Int), hasKey st.table s t = true →
      hasKey (processRows err idx st rows).table s t = true
  | [], _, _, _, _, h => h
  | c :: cs, idx, st, s, t, h =>
      processRows_hasKey_mono err cs (idx + 1) _ s t
        (processRow_hasKey_mono err idx st c s t h)

theorem processRow_covers (err : Nat → Bool) (idx : Nat) (st : LoadState)
    (c : Candle) (herr : err idx = false) (hconv : convertible c = true) :
    hasKey (processRow err idx st c).table SYMBOL c.candle_time = true := by
  unfold processRow
  rw [herr]
  simp only [Bool.false_eq_true, if_false]
  split
  · next o2 h2 l2 cl2 ho2 hh2 hl2 hcl2 =>
      split
      · next hk => exact hk
      · unfold hasKey
        rw [List.any_append]
        simp
  · next hfail =>
      simp only [convertible, Bool.and_eq_true, Option.isSome_iff_exists]
        at hconv
      obtain ⟨⟨⟨⟨o1, ho1⟩, ⟨h1, hh1⟩⟩, ⟨l1, hl1⟩⟩, ⟨cl1, hcl1⟩⟩ := hconv
      exact (hfail o1 h1 l1 cl1 ho1 hh1 hl1 hcl1).elim



theorem processRows_covers (err : Nat → Bool) (herr : ∀ i, err i = false) :
    ∀ (rows : List Candle) (idx : Nat) (st : LoadState) (c : Candle),
      c ∈ rows → convertible c = true →
      hasKey (processRows err idx st rows).table SYMBOL c.candle_time =
        true := by
  intro rows
  induction rows with
  | nil => intro idx st c hc; cases hc
  | cons d ds ih =>
      intro idx st c hc hconv
      rcases List.mem_cons.mp hc with rfl | hc'
      · rw [processRows]
        exact processRows_hasKey_mono err ds (idx + 1) _ SYMBOL c.candle_time
          (processRow_covers err idx st c (herr idx) hconv)
      · rw [processRows]
        exact ih (idx + 1) _ c hc' hconv

theorem processRows_sum (err : Nat → Bool) :
    ∀ (rows : List Candle) (idx : Nat) (st : LoadState),
      (processRows err idx st rows).inserted +
          (processRows err idx st rows).skipped =
        st.inserted + st.skipped + rows.length
  | [], _, _ => rfl
  | c :: cs, idx, st => by
      rw [processRows, processRows_sum err cs, processRow_sum,
        List.length_cons]
      omega

theorem processRows_all_conflict (err : Nat → Bool) :
    ∀ (rows : List Candle) (idx : Nat) (st : LoadState),
      (∀ c ∈ rows, convertible c = true →
        hasKey st.table SYMBOL c.candle_time = true) →
      processRows err idx st rows =
        { st with skipped := st.skipped + rows.length }
  | [], _, st, _ => by
      show st = { st with skipped := st.skipped + 0 }
      rfl
  | c :: cs, idx, st, h => by
      have hrec := processRows_all_conflict err cs (idx + 1)
        { st with skipped := st.skipped + 1 }
        (fun d hd hcv => h d (List.mem_cons_of_mem c hd) hcv)
      rw [processRows,
        processRow_skip_of_conflict err idx st c (h c (List.mem_cons_self c cs)),
        hrec, List.length_cons]
      simp
      omega



theorem hasKey_append_single (l : List DbRow) (x : DbRow) (s : String)
    (t : Int) :
    hasKey (l ++ [x]) s t =
      (hasKey l s t || (x.symbol == s && x.candle_time == t)) := by
  unfold hasKey
  rw [List.any_append]
  simp

theorem length_filter_add {α : Type} (p : α → Bool) (l : List α) :
    (l.filter p).length + (l.filter (fun a => !p a)).length = l.length := by
  induction l with
  | nil => rfl
  | cons a as ih =>
      by_cases h : p a
      · simp only [List.filter_cons, h, Bool.not_true, if_true]
        simp [h, ih]
        omega
      · simp only [List.filter_cons]
        simp only [Bool.not_eq_true] at h
        simp [h, ih]
        omega

theorem processRow_eval (err : Nat → Bool) (idx : Nat) (st : LoadState)
    (c : Candle) (he : err idx = false) (hc : convertible c = true) :
    processRow err idx st c =
      if hasKey st.table SYMBOL c.candle_time then
        { st with skipped := st.skipped + 1 }
      else
        { st with
            table := st.table ++
              [{ symbol := SYMBOL, candle_time := c.candle_time,
                 open_ := c.open_.getD 0, high := c.high.getD 0,
                 low := c.low.getD 0, close := c.close.getD 0,
                 volume := c.volume }]
            inserted := st.inserted + 1 } := by
  unfold processRow
  rw [he]
  simp only [Bool.false_eq_true, if_false]
  split
  · next o2 h2 l2 cl2 ho2 hh2 hl2 hcl2 =>
      rw [ho2, hh2, hl2, hcl2]
      rfl
  · next hfail =>
      simp only [convertible, Bool.and_eq_true, Option.isSome_iff_exists]
        at hc
      obtain ⟨⟨⟨⟨o1, ho1⟩, ⟨h1, hh1⟩⟩, ⟨l1, hl1⟩⟩, ⟨cl1, hcl1⟩⟩ := hc
      exact (hfail o1 h1 l1 cl1 ho1 hh1 hl1 hcl1).elim

theorem processRows_counts (err : Nat → Bool) (herr : ∀ i, err i = false) :
    ∀ (rows : List Candle) (idx : Nat) (st : LoadState),
      (∀ c ∈ rows, convertible c = true) →
      (rows.map (·.candle_time)).Nodup →
      (processRows err idx st rows).inserted =
        st.inserted +
          (rows.filter
            (fun c => !hasKey st.table SYMBOL c.candle_time)).length ∧
      (processRows err idx st rows).skipped =
        st.skipped +
          (rows.filter
            (fun c => hasKey st.table SYMBOL c.candle_time)).length := by
  intro rows
  induction rows with
  | nil => intro idx st _ _; exact ⟨rfl, rfl⟩
  | cons c cs ih =>
      intro idx st hconv hnd
      have hc := hconv c (List.mem_cons_self c cs)
      rw [List.map_cons] at hnd
      have hnd' : (cs.map (·.candle_time)).Nodup :=
        (List.nodup_cons.mp hnd).2
      have hne : ∀ d ∈ cs, (c.candle_time == d.candle_time) = false := by
        intro d hd
        rw [beq_eq_false_iff_ne]
        intro hEq
        apply (List.nodup_cons.mp hnd).1
        rw [hEq]
        exact List.mem_map_of_mem (·.candle_time) hd
      rw [processRows, processRow_eval err idx st c (herr idx) hc]
      by_cases hk : hasKey st.table SYMBOL c.candle_time
      · rw [if_pos hk]
        obtain ⟨ih1, ih2⟩ := ih (idx + 1) { st with skipped := st.skipped + 1 }
          (fun d hd => hconv d (List.mem_cons_of_mem c hd)) hnd'
        simp only [] at ih1 ih2
        simp only [List.filter_cons, hk, Bool.not_true, if_true,
          Bool.false_eq_true, if_false, List.length_cons]
        exact ⟨ih1, by rw [ih2]; omega⟩
      · have hkf : hasKey st.table SYMBOL c.candle_time = false := by
          simpa using hk
        rw [if_neg hk]
        obtain ⟨ih1, ih2⟩ := ih (idx + 1)
          { st with
              table := st.table ++
                [{ symbol := SYMBOL, candle_time := c.candle_time,
                   open_ := c.open_.getD 0, high := c.high.getD 0,
                   low := c.low.getD 0, close := c.close.getD 0,
                   volume := c.volume }]
              inserted := st.inserted + 1 }
          (fun d hd => hconv d (List.mem_cons_of_mem c hd)) hnd'
        simp only [] at ih1 ih2
        have hfilt1 :
            cs.filter (fun d => !hasKey (st.table ++
              [{ symbol := SYMBOL, candle_time := c.candle_time,
                 open_ := c.open_.getD 0, high := c.high.getD 0,
                 low := c.low.getD 0, close := c.close.getD 0,
                 volume := c.volume }]) SYMBOL d.candle_time) =
            cs.filter (fun d => !hasKey st.table SYMBOL d.candle_time) := by
          apply List.filter_congr
          intro d hd
          rw [hasKey_append_single]
          simp [hne d hd]
        have hfilt2 :
            cs.filter (fun d => hasKey (st.table ++
              [{ symbol := SYMBOL, candle_time := c.candle_time,
                 open_ := c.open_.getD 0, high := c.high.getD 0,
                 low := c.low.getD 0, close := c.close.getD 0,
                 volume := c.volume }]) SYMBOL d.candle_time) =
            cs.filter (fun d => hasKey st.table SYMBOL d.candle_time) := by
          apply List.filter_congr
          intro d hd
          rw [hasKey_append_single]
          simp [hne d hd]
        rw [hfilt1] at ih1
        rw [hfilt2] at ih2
        simp only [List.filter_cons, hkf, Bool.not_false, if_true,
          Bool.false_eq_true, if_false, List.length_cons]
        exact ⟨by rw [ih1]; omega, ih2⟩



theorem fetch_ok_eq {f : Frame} {df : List Candle}
    (h : fetch_candles f = Except.ok df) :
    df = (f.rows.filter keepRow).map (mkCandle f.tz) := by
  unfold fetch_candles at h
  split at h
  · cases h
  · injection h with h
    exact h.symm

theorem normalizeTime_eq_spec (tz : Option Int) (t : Int) :
    normalizeTime tz t = specUtcInstant tz t := by
  cases tz <;>
    simp [normalizeTime, specUtcInstant, tz_localize_none, tz_convert_utc,
      tz_localize_kolkata]

theorem normalizeTime_mono (tz : Option Int) {t u : Int} (h : t ≤ u) :
    normalizeTime tz t ≤ normalizeTime tz u := by
  cases tz <;>
    simp [normalizeTime, tz_localize_none, tz_convert_utc,
      tz_localize_kolkata] <;>
    omega

theorem verify_false_ok (t : List DbRow) :
    ∃ x, verify false t = Except.ok x := by
  unfold verify
  simp only [Bool.false_eq_true, if_false]
  cases t.filter (fun r => r.symbol == SYMBOL) with
  | nil => exact ⟨none, rfl⟩
  | cons a as => exact ⟨_, rfl⟩


/-- C1: running the loader a second time on the same fetched dataframe
inserts zero new rows — if the first `load_to_db` run completed with no
per-row errors, a subsequent run of `load_to_db` on the same dataframe
(whatever its per-row error behaviour) reports `inserted = 0` and
`skipped` equal to the number of rows, because every `(symbol,
candle_time)` key already conflicts and the upsert is a no-op. -/
theorem claim_idempotent_second_load (table : List DbRow) (df : List Candle)
    (err1 err2 : Nat → Bool) (herr1 : ∀ i, err1 i = false)
    (st1 st2 : LoadState)
    (h1 : load_to_db false err1 table df = Except.ok st1)
    (h2 : load_to_db false err2 st1.table df = Except.ok st2) :
    st2.inserted = 0 ∧ st2.skipped = df.length := by
  unfold load_to_db at h1 h2
  simp only [Bool.false_eq_true, if_false, Except.ok.injEq] at h1 h2
  subst h1
  subst h2
  rw [loadBatches_eq, loadBatches_eq]
  simp only []
  have hcov : ∀ c ∈ df, convertible c = true →
      hasKey (processRows err1 0 ⟨table, 0, 0, 0⟩ df).table SYMBOL
        c.candle_time = true :=
    fun c hc hcv => processRows_covers err1 herr1 df 0 ⟨table, 0, 0, 0⟩ c hc hcv
  rw [processRows_all_conflict err2 df 0
    ⟨(processRows err1 0 ⟨table, 0, 0, 0⟩ df).table, 0, 0, 0⟩ hcov]
  simp

/-- Witness for C1 at a concrete table and dataframe. -/
theorem claim_idempotent_second_load_witness :
    wSt1b.inserted = 0 ∧ wSt1b.skipped = wDf2.length :=
  claim_idempotent_second_load [] wDf2 wErr0 wErr0 (fun _ => rfl) wSt1 wSt1b
    rfl rfl


/-- C2: when the downloaded dataframe is empty, `fetch_candles` exits
with code 1, and `main_run` terminates with exit code 1 before any
database write — the table is unchanged. -/
theorem claim_empty_fetch_exits_1 (o : Oracle) (table : List DbRow)
    (h : o.frame.rows = []) :
    fetch_candles o.frame = Except.error 1 ∧ main_run o table = ⟨1, table⟩ := by
  have hf : fetch_candles o.frame = Except.error 1 := by
    unfold fetch_candles
    rw [h]
    rfl
  exact ⟨hf, by unfold main_run; rw [hf]⟩

/-- Witness for C2 at a concrete empty-fetch oracle. -/
theorem claim_empty_fetch_exits_1_witness :
    fetch_candles wOracleE.frame = Except.error 1 ∧
      main_run wOracleE [] = ⟨1, []⟩ :=
  claim_empty_fetch_exits_1 wOracleE [] rfl

/-- C3: no row with a missing open, high, low, or close value survives
`fetch_candles` — every candle in the returned dataframe (hence every row
handed to `load_to_db`) has all four price fields present, because
`dropna` removes the others before the function returns. -/
theorem claim_no_nan_persisted (f : Frame) (df : List Candle)
    (h : fetch_candles f = Except.ok df) :
    ∀ c ∈ df, convertible c = true := by
  intro c hc
  rw [fetch_ok_eq h] at hc
  obtain ⟨r, hr, rfl⟩ := List.mem_map.mp hc
  have hk : keepRow r = true := (List.mem_filter.mp hr).2
  simpa [convertible, mkCandle, keepRow] using hk

/-- Witness for C3 at a concrete frame with one NaN row. -/
theorem claim_no_nan_persisted_witness :
    fetch_candles wFrame = Except.ok wOut ∧ convertible wC = true :=
  ⟨rfl, claim_no_nan_persisted wFrame wOut rfl wC (by decide)⟩

/-- C4: key uniqueness is an invariant of the `replay_candles` table —
starting from any table whose `(symbol, candle_time)` pairs are unique,
after any sequence of loader runs the pairs are still unique, because the
only insert path is the upsert with `ON CONFLICT (symbol, candle_time) DO
NOTHING`. -/
theorem claim_key_unique_invariant (loads : List (List Candle × (Nat → Bool)))
    (table : List DbRow) (h : keyUnique table = true) :
    keyUnique (runLoads loads table) = true := by
  induction loads generalizing table with
  | nil => exact h
  | cons p ps ih =>
      unfold runLoads
      rw [List.foldl_cons]
      apply ih
      rw [loadBatches_eq]
      simp only []
      exact processRows_keyUnique p.2 p.1 0 ⟨table, 0, 0, 0⟩ h

/-- Witness for C4 at a concrete table and load sequence. -/
theorem claim_key_unique_invariant_witness :
    keyUnique wTableX = true ∧ keyUnique (runLoads wLoads wTableX) = true :=
  ⟨by decide, claim_key_unique_invariant wLoads wTableX (by decide)⟩

/-- C5: a per-row insert failure is non-fatal — a row whose upsert
raises is counted as skipped and leaves the state otherwise unchanged,
processing continues with the remaining rows (every row of the input is
accounted for: `inserted + skipped` equals the row count), and the loader
commits once per batch of `BATCH = 500` rows, i.e. `⌈n / 500⌉` times. -/
theorem claim_per_row_failure_nonfatal :
    (∀ (err : Nat → Bool) (idx : Nat) (st : LoadState) (c : Candle),
      err idx = true →
      processRow err idx st c = { st with skipped := st.skipped + 1 }) ∧
    (∀ (err : Nat → Bool) (table : List DbRow) (df : List Candle)
      (st : LoadState), load_to_db false err table df = Except.ok st →
      st.inserted + st.skipped = df.length ∧
        st.commits = numBatches df.length) := by
  constructor
  · exact processRow_of_err
  · intro err table df st h
    unfold load_to_db at h
    simp only [Bool.false_eq_true, if_false, Except.ok.injEq] at h
    subst h
    rw [loadBatches_eq]
    simp only []
    refine ⟨?_, ?_⟩
    · have hs := processRows_sum err df 0 ⟨table, 0, 0, 0⟩
      simp only [] at hs
      omega
    · omega

/-- Witness for C5 at a concrete erroring oracle and dataframe. -/
theorem claim_per_row_failure_nonfatal_witness :
    processRow wErr1 0 wSt0 (wCandle 1) =
        { wSt0 with skipped := wSt0.skipped + 1 } ∧
      (wStE.inserted + wStE.skipped = wDf2.length ∧
        wStE.commits = numBatches wDf2.length) :=
  ⟨claim_per_row_failure_nonfatal.1 wErr1 0 wSt0 (wCandle 1) rfl,
    claim_per_row_failure_nonfatal.2 wErr1 [] wDf2 wStE rfl⟩


/-- C6 counterexample: the claim that the process exits 0 in every run
that passes the empty-fetch check and the loader connection is false — in
the run `wOracleV` (fetch succeeds, loader connection succeeds, verifier
connection fails) `main_run` terminates with exit code 1, not 0. -/
theorem claim_exit_codes_counterexample :
    ¬ (∀ (o : Oracle) (table : List DbRow),
        (main_run o table).exitCode =
          if o.frame.rows.isEmpty || o.connFail1 then 1 else 0) :=
  fun h => absurd (h wOracleV []) (by decide)

/-- C6 (amended): the process exits with status 1 exactly when the
fetch returns no data, the loader database connection fails, or the
verifier database connection fails (the latter as an uncaught exception);
it exits with status 0 in every other run. -/
theorem claim_exit_codes_amended (o : Oracle) (table : List DbRow) :
    (main_run o table).exitCode =
      if o.frame.rows.isEmpty || o.connFail1 || o.connFail2 then 1 else 0 := by
  rcases o with ⟨⟨tz, rows⟩, c1, c2, e⟩
  cases rows with
  | nil => cases c1 <;> cases c2 <;> rfl
  | cons r rs =>
      cases c1 with
      | true => rfl
      | false =>
          cases c2 with
          | true => rfl
          | false =>
              have hf : fetch_candles ⟨tz, r :: rs⟩ =
                  Except.ok (((r :: rs).filter keepRow).map (mkCandle tz)) :=
                rfl
              have hl : load_to_db false e table
                  (((r :: rs).filter keepRow).map (mkCandle tz)) =
                  Except.ok (loadBatches e ⟨table, 0, 0, 0⟩
                    (((r :: rs).filter keepRow).map (mkCandle tz))) := rfl
              obtain ⟨x, hx⟩ := verify_false_ok
                (loadBatches e ⟨table, 0, 0, 0⟩
                  (((r :: rs).filter keepRow).map (mkCandle tz))).table
              unfold main_run
              simp only []
              rw [hf]
              simp only []
              rw [hl]
              simp only []
              rw [hx]
              rfl


/-- C7: for an input of 500 candles with pairwise-distinct keys, all
price fields present, of which exactly 10 have keys already present in
the table, and with no row raising an insert error, `load_to_db` reports
`inserted = 490` and `skipped = 10`. -/
theorem claim_batch_500_counts (table : List DbRow) (df : List Candle)
    (err : Nat → Bool) (herr : ∀ i, err i = false)
    (hlen : df.length = 500)
    (hnd : (df.map (·.candle_time)).Nodup)
    (hconv : ∀ c ∈ df, convertible c = true)
    (hdup : (df.filter
      (fun c => hasKey table SYMBOL c.candle_time)).length = 10)
    (st : LoadState) (h : load_to_db false err table df = Except.ok st) :
    st.inserted = 490 ∧ st.skipped = 10 := by
  unfold load_to_db at h
  simp only [Bool.false_eq_true, if_false, Except.ok.injEq] at h
  subst h
  rw [loadBatches_eq]
  simp only []
  obtain ⟨h1, h2⟩ :=
    processRows_counts err herr df 0 ⟨table, 0, 0, 0⟩ hconv hnd
  simp only [] at h1 h2
  have hsplit := length_filter_add
    (fun c => hasKey table SYMBOL c.candle_time) df
  rw [h1, h2]
  constructor
  · omega
  · omega

set_option maxRecDepth 8000 in
/-- Witness for C7: 500 concrete candles over a table holding 10 of
their keys. -/
theorem claim_batch_500_counts_witness :
    wSt500.inserted = 490 ∧ wSt500.skipped = 10 :=
  claim_batch_500_counts wTable10 wDf500 wErr0 (fun _ => rfl)
    (by rw [wDf500, List.length_map, List.length_range])
    (by
      have h : wDf500.map (·.candle_time) =
          (List.range 500).map (fun (n : Nat) => Int.ofNat n) := by
        rw [wDf500, List.map_map]
        rfl
      rw [h]
      exact List.Nodup.map (fun a b hab => Int.ofNat.inj hab)
        (List.nodup_range 500))
    (by
      intro c hc
      rw [wDf500] at hc
      obtain ⟨n, -, rfl⟩ := List.mem_map.mp hc
      rfl)
    (by decide)
    wSt500 rfl


/-- C8 counterexample: the claim that `fetch_candles` returns an
ascending-by-timestamp dataframe for every provider response is false —
on the descending response `wFrameD` the function returns and the output
is not ascending, since the code never sorts. -/
theorem claim_fetch_sorted_counterexample :
    ¬ (∀ (f : Frame) (df : List Candle), fetch_candles f = Except.ok df →
        List.Pairwise (fun a b => a.candle_time ≤ b.candle_time) df) :=
  fun h => absurd (h wFrameD _ rfl) (by decide)

/-- C8 (amended): `fetch_candles` preserves the provider order — if
the provider response is ascending by timestamp, the returned dataframe
is ascending by `candle_time` (dropping rows keeps the relative order and
the timezone normalization is monotone). -/
theorem claim_fetch_order_preserved (f : Frame) (df : List Candle)
    (hsorted : List.Pairwise (fun a b => a.t ≤ b.t) f.rows)
    (h : fetch_candles f = Except.ok df) :
    List.Pairwise (fun a b => a.candle_time ≤ b.candle_time) df := by
  rw [fetch_ok_eq h]
  rw [List.pairwise_map]
  exact ((hsorted.sublist (List.filter_sublist f.rows)).imp
    (fun hab => normalizeTime_mono f.tz hab))

/-- Witness for C8 at a concrete ascending frame. -/
theorem claim_fetch_order_preserved_witness :
    List.Pairwise (fun a b => a.t ≤ b.t) wFrameS.rows ∧
      List.Pairwise (fun a b => a.candle_time ≤ b.candle_time) wOutS :=
  ⟨by decide, claim_fetch_order_preserved wFrameS wOutS (by decide) rfl⟩

/-- C9: every `candle_time` returned by `fetch_candles` is the naive
UTC instant of the corresponding kept provider timestamp — a
timezone-aware timestamp is converted to UTC and stripped, and a naive
timestamp is interpreted as Asia/Kolkata wall time, converted to UTC,
then stripped. -/
theorem claim_times_naive_utc (f : Frame) (df : List Candle)
    (h : fetch_candles f = Except.ok df) :
    df.map (·.candle_time) =
      (f.rows.filter keepRow).map (fun r => specUtcInstant f.tz r.t) := by
  rw [fetch_ok_eq h, List.map_map]
  apply List.map_congr_left
  intro r _
  exact normalizeTime_eq_spec f.tz r.t

/-- Witness for C9 at a concrete naive frame. -/
theorem claim_times_naive_utc_witness :
    fetch_candles wFrame = Except.ok wOut ∧
      wOut.map (·.candle_time) =
        (wFrame.rows.filter keepRow).map
          (fun r => specUtcInstant wFrame.tz r.t) :=
  ⟨rfl, claim_times_naive_utc wFrame wOut rfl⟩

/-- C10: every row the loader writes carries the fixed symbol constant
`"NIFTY50"` — after any `load_to_db` run, each table row either was
already present or has `symbol = SYMBOL`, so the verify query filtering
on that constant covers every row this loader can have written. -/
theorem claim_symbol_constant (err : Nat → Bool) (table : List DbRow)
    (df : List Candle) (st : LoadState)
    (h : load_to_db false err table df = Except.ok st) :
    ∀ r ∈ st.table, r ∈ table ∨ r.symbol = SYMBOL := by
  intro r hr
  unfold load_to_db at h
  simp only [Bool.false_eq_true, if_false, Except.ok.injEq] at h
  subst h
  rw [loadBatches_eq] at hr
  simp only [] at hr
  exact processRows_mem_symbol err df 0 ⟨table, 0, 0, 0⟩ r hr

/-- Witness for C10 at a concrete run over the empty table. -/
theorem claim_symbol_constant_witness :
    wRow1 ∈ ([] : List DbRow) ∨ wRow1.symbol = SYMBOL :=
  claim_symbol_constant wErr0 [] wDf2 wSt1 rfl wRow1 (by decide)
end LoadNiftyCandles
